import Mathlib

/-!
Verification of the subnet deduplication engine and nftables ruleset
synthesizer of `nftblockd`.

The development shallowly embeds the relevant Rust sources:
* `src/network.rs` / the `ipnetwork` data type: `IpNetwork` (address bits,
  prefix length, family width), `networkAddr`, `isNetwork`;
* `src/iptrie.rs`: the binary prefix trie (`TrieNode`, `TrieNode.insert`)
  and `deduplicate`;
* `src/subnet.rs`: `parse_from_string` and `validate_subnets`;
* `src/nftables/builder.rs` and `src/nftables/config.rs`: the ruleset
  builder and `NftConfig.generate_ruleset`.

Machine integers (`u32`/`u128`) are modelled as `Nat` with explicit
well-formedness bounds where they matter.
-/

namespace Nftblockd

/-! ## Subnet model (`src/network.rs`, backed by the `ipnetwork` crate)

An `Ipv4Network`/`Ipv6Network` value stores the literal address bits as
written (possibly with host bits set) together with the prefix length.
The family is captured by the bit width `w` (32 for IPv4, 128 for IPv6);
the Rust code is monomorphic per family, which the width field reflects. -/

structure IpNetwork where
  /-- The stored address bits (`u32`/`u128`), exactly as parsed. -/
  ip : Nat
  /-- The prefix length (`network_prefix()` in `ListNetwork`). -/
  plen : Nat
  /-- The family's maximal prefix (`max_prefix()`): 32 or 128. -/
  w : Nat
deriving DecidableEq, Repr

/-- Type invariant maintained by the `ipnetwork` crate: the address fits
in the family's width and the prefix does not exceed it. -/
def IpNetwork.Wf (x : IpNetwork) : Prop :=
  x.ip < 2 ^ x.w ∧ x.plen ≤ x.w

instance (x : IpNetwork) : Decidable x.Wf := by unfold IpNetwork.Wf; infer_instance

/-- The `ipnetwork` method `network()`: the stored address with all host bits
(the low `w - plen` bits) cleared. -/
def IpNetwork.networkAddr (x : IpNetwork) : Nat :=
  (x.ip >>> (x.w - x.plen)) <<< (x.w - x.plen)

/-- Embeds `ListNetwork::is_network` (`src/network.rs`): the stored address is
already aligned to its prefix, `self.network() == self.ip()`. -/
def IpNetwork.isNetwork (x : IpNetwork) : Bool :=
  x.networkAddr == x.ip

/-- The set of addresses belonging to the subnet: those agreeing with the
network address on the top `plen` bits.  For a well-formed, network-aligned
subnet this is exactly the CIDR range `[networkAddr, networkAddr + 2^(w-plen))`. -/
def IpNetwork.inRange (x : IpNetwork) (a : Nat) : Prop :=
  a / 2 ^ (x.w - x.plen) = x.networkAddr / 2 ^ (x.w - x.plen)

instance (x : IpNetwork) (a : Nat) : Decidable (x.inRange a) := by
  unfold IpNetwork.inRange; infer_instance

/-- Two subnets have disjoint address ranges: no address lies in both. -/
def RangeDisjoint (x y : IpNetwork) : Prop :=
  ¬ ∃ a, x.inRange a ∧ y.inRange a

/-- The bit path walked by `TrieNode::insert` (`src/iptrie.rs`): for
`i in 0..network_prefix()` the bit `(network_addr >> (max_prefix - 1 - i)) & 1`. -/
def IpNetwork.ipPath (x : IpNetwork) : List Bool :=
  (List.range x.plen).map (fun i => x.networkAddr.testBit (x.w - 1 - i))

/-! ## The prefix trie (`src/iptrie.rs`)

`TrieNode` has two optional children and an `is_subnet` flag.  The Rust
`Option<Box<TrieNode>>` children are embedded by a dedicated `nil`
constructor; a present node is `mk left right is_subnet`. -/

inductive TrieNode where
  /-- An absent child (`None` in `children: [Option<Box<TrieNode>>; 2]`). -/
  | nil : TrieNode
  /-- A present node with its two children and the `is_subnet` flag. -/
  | mk (left right : TrieNode) (is_subnet : Bool) : TrieNode
deriving DecidableEq, Repr

/-- Embeds `TrieNode::new()`: no children, `is_subnet = false`. -/
def TrieNode.new : TrieNode := .mk .nil .nil false

/-- Read the `is_subnet` flag (`false` for an absent node). -/
def TrieNode.is_subnet : TrieNode → Bool
  | .nil => false
  | .mk _ _ b => b

/-- Child access `children[bit]`; `false` selects index 0 (left), `true` index 1 (right). -/
def TrieNode.getChild : TrieNode → Bool → TrieNode
  | .nil, _ => .nil
  | .mk l _ _, false => l
  | .mk _ r _, true => r

/-- Replace `children[bit]` (no-op on an absent node, which never occurs). -/
def TrieNode.setChild : TrieNode → Bool → TrieNode → TrieNode
  | .nil, _, _ => .nil
  | .mk _ r b, false, c => .mk c r b
  | .mk l _ b, true, c => .mk l c b

/-- Embeds `get_or_insert_with(|| Box::new(TrieNode::new()))`: an absent child is
replaced by a fresh node, a present one is kept. -/
def TrieNode.orNew : TrieNode → TrieNode
  | .nil => TrieNode.new
  | n => n

/-- Embeds `TrieNode::insert` (`src/iptrie.rs` lines 70–96), with the loop over the
address bits reified as recursion over the precomputed bit path
(`IpNetwork.ipPath`).  Returns the updated node and the `bool` result:
* while descending, a node with `is_subnet = true` means the subnet is
  already covered — return `false`;
* `children[bit].get_or_insert_with(new)` materialises absent children;
* at the end of the path, an already-marked node is a duplicate (`false`),
  otherwise the node is marked and its children dropped (`true`). -/
def TrieNode.insert : TrieNode → List Bool → TrieNode × Bool
  | n, [] =>
      if n.is_subnet then (n, false)
      else (TrieNode.mk .nil .nil true, true)
  | n, bit :: rest =>
      if n.is_subnet then (n, false)
      else
        let res := ((n.getChild bit).orNew).insert rest
        (n.setChild bit res.1, res.2)

/-- Stable insertion step of sorting by prefix length: the incoming element
is placed before the first element whose key is not smaller, so elements
with equal keys keep their original relative order. -/
def insertByPlen (x : IpNetwork) : List IpNetwork → List IpNetwork
  | [] => [x]
  | y :: ys => if x.plen ≤ y.plen then x :: y :: ys else y :: insertByPlen x ys

/-- Embeds `ips.sort_by_key(|ip| ip.network_prefix())` (`src/iptrie.rs` line 117):
Rust's `sort_by_key` is a stable sort by the key, embedded here as stable
insertion sort (stable sorts by a fixed key are unique, so any stable sort
yields the same list). -/
def sortByPlen : List IpNetwork → List IpNetwork
  | [] => []
  | x :: xs => insertByPlen x (sortByPlen xs)

/-- The `for ip in ips { if root.insert(&ip) { result.push(ip) } }` loop of
`deduplicate`, threading the trie root and the result accumulator. -/
def dedupeLoop : TrieNode → List IpNetwork → List IpNetwork → List IpNetwork
  | _, acc, [] => acc
  | t, acc, x :: xs =>
      let res := t.insert x.ipPath
      if res.2 then dedupeLoop res.1 (acc ++ [x]) xs else dedupeLoop res.1 acc xs

/-- Embeds `deduplicate` (`src/iptrie.rs` lines 112–126): propagate `None`, sort by
ascending prefix length, then insert each subnet into a fresh trie, keeping
exactly those whose insertion succeeds. -/
def deduplicate (ips : Option (List IpNetwork)) : Option (List IpNetwork) :=
  match ips with
  | none => none
  | some l => some (dedupeLoop TrieNode.new [] (sortByPlen l))

/-- Greedy reformulation of the dedup loop: an element survives exactly when
no previously surviving element's bit path is a prefix of its own. -/
def greedySel (chosen : List (List Bool)) : List IpNetwork → List IpNetwork
  | [] => []
  | x :: xs =>
      if chosen.any (fun p => p.isPrefixOf x.ipPath) then greedySel chosen xs
      else x :: greedySel (x.ipPath :: chosen) xs

/-! ## Error model (`src/error.rs`) -/

inductive AppErrorKind where
  | RequestError
  | FileError
  | NftablesError
  | ParseError
  | DeserializeError
deriving DecidableEq, Repr

structure AppError where
  error_kind : AppErrorKind
  message : String
deriving DecidableEq, Repr

instance {ε α : Type} [DecidableEq ε] [DecidableEq α] : DecidableEq (Except ε α) := fun x y =>
  match x, y with
  | .ok a, .ok b =>
      if h : a = b then .isTrue (by rw [h]) else .isFalse (by simp [h])
  | .error a, .error b =>
      if h : a = b then .isTrue (by rw [h]) else .isFalse (by simp [h])
  | .ok _, .error _ => .isFalse (by simp)
  | .error _, .ok _ => .isFalse (by simp)

/-! ## String splitting and validation (`src/subnet.rs`)

Strings are manipulated through their character lists so that every
operation is structurally recursive (and hence kernel-evaluable). -/

/-- Split a character list at every character satisfying `p`, keeping empty
chunks (the semantics of Rust's `str::split` with a `char` pattern). -/
def splitPred (p : Char → Bool) : List Char → List (List Char)
  | [] => [[]]
  | c :: rest =>
      if p c then [] :: splitPred p rest
      else
        match splitPred p rest with
        | [] => [[c]]
        | t :: ts => (c :: t) :: ts

/-- Fuel-driven worker for splitting on a (non-empty) delimiter string,
keeping empty chunks: the semantics of Rust's `str::split` with a `&str`
pattern.  The fuel is an upper bound on the number of consumed characters. -/
def splitOnAux (d : List Char) : Nat → List Char → List (List Char)
  | _, [] => [[]]
  | 0, _ :: _ => [[]]
  | fuel + 1, c :: rest =>
      if d.isPrefixOf (c :: rest) then
        [] :: splitOnAux d fuel ((c :: rest).drop d.length)
      else
        match splitOnAux d fuel rest with
        | [] => [[c]]
        | t :: ts => (c :: t) :: ts

def splitOnList (d s : List Char) : List (List Char) :=
  splitOnAux d s.length s

/-- Rust's `str::trim`: strip leading and trailing whitespace. -/
def trimList (l : List Char) : List Char :=
  ((l.dropWhile Char.isWhitespace).reverse.dropWhile Char.isWhitespace).reverse

/-- Embeds `parse_from_string` (`src/subnet.rs` lines 136–157): `None` or an empty
string yield `None`; otherwise the text is split on whitespace
(`split_string = None`, empty tokens never produced) or on the custom
delimiter (`split_string = Some`, empty tokens kept), and each token is
trimmed. -/
def parse_from_string (data : Option String) (split_string : Option String) :
    Option (List String) :=
  match data with
  | some s =>
      if s.data = [] then none
      else
        match split_string with
        | none =>
            some (((splitPred Char.isWhitespace s.data).filter (fun t => t ≠ [])).map
              (fun t => String.mk (trimList t)))
        | some d =>
            some ((splitOnList d.data s.data).map (fun t => String.mk (trimList t)))
  | none => none

/-- Modelled from the spec: decimal octet parsing done by Rust's `std`
`Ipv4Addr: FromStr` (external to `src/`) — 1 to 3 digits, no leading zeros,
value at most 255. -/
def digitsToNat (t : List Char) : Nat :=
  t.foldl (fun acc c => acc * 10 + (c.toNat - '0'.toNat)) 0

def parseOctet (t : List Char) : Option Nat :=
  if t = [] then none
  else if ¬ t.all Char.isDigit then none
  else if 1 < t.length ∧ t.head? = some '0' then none
  else if digitsToNat t ≤ 255 then some (digitsToNat t) else none

def parseIpv4Addr (t : List Char) : Option Nat :=
  match (splitOnList ['.'] t).mapM parseOctet with
  | some [a, b, c, d] => some (((a * 256 + b) * 256 + c) * 256 + d)
  | _ => none

def parsePlen (t : List Char) : Option Nat :=
  if t = [] then none
  else if ¬ t.all Char.isDigit then none
  else if digitsToNat t ≤ 32 then some (digitsToNat t) else none

/-- Modelled from the spec: §4.1 — CIDR parsing for IPv4 performed by the
external `ipnetwork` crate (not part of `src/`): `"a.b.c.d/n"` with
`n ≤ 32`, or a bare address implying `/32`; host bits may be set.  The
error text is abstract (the repo only forwards it into `AppError`). -/
def parseIpv4Network (s : String) : Except String IpNetwork :=
  match splitOnList ['/'] s.data with
  | [a] =>
      match parseIpv4Addr a with
      | some ip => .ok ⟨ip, 32, 32⟩
      | none => .error ("invalid address: " ++ s)
  | [a, p] =>
      match parseIpv4Addr a, parsePlen p with
      | some ip, some n => .ok ⟨ip, n, 32⟩
      | _, _ => .error ("invalid address: " ++ s)
  | _ => .error ("invalid address: " ++ s)

/-- Modelled from the spec: `ipnetwork`'s `Display` for `Ipv4Network`
(used by the `format!` in `validate_subnets`' misalignment error): the
stored address in dotted-quad form followed by `/prefix-length`. -/
def ipv4Display (x : IpNetwork) : String :=
  toString ((x.ip >>> 24) % 256) ++ "." ++ toString ((x.ip >>> 16) % 256) ++ "." ++
    toString ((x.ip >>> 8) % 256) ++ "." ++ toString (x.ip % 256) ++ "/" ++ toString x.plen

/-- The loop of `validate_subnets` (`src/subnet.rs` lines 172–207),
parameterised — like the Rust generic over `T: FromStr + Display` — by the
family's parser and display function.  For each entry: a parse failure is
fatal in strict mode (kind `ParseError`, via `From<IpNetworkError>`) and
skipped otherwise; a parsed but non-aligned entry is fatal in strict mode
with the message `invalid ip: {parsed_ip}; not a network` and skipped
otherwise; aligned entries are accumulated. -/
def validateLoop (parse : String → Except String IpNetwork)
    (display : IpNetwork → String) (strict : Bool) :
    List String → Except AppError (List IpNetwork)
  | [] => .ok []
  | ip :: rest =>
      match parse ip with
      | .ok parsed_ip =>
          if parsed_ip.isNetwork then
            (validateLoop parse display strict rest).map (fun tail => parsed_ip :: tail)
          else if strict then
            .error ⟨.ParseError, "invalid ip: " ++ display parsed_ip ++ "; not a network"⟩
          else
            validateLoop parse display strict rest
      | .error e =>
          if strict then .error ⟨.ParseError, e⟩
          else validateLoop parse display strict rest

/-- Embeds `validate_subnets` (`src/subnet.rs` lines 172–207): run the loop, then
return `None` when nothing valid was collected and `Some` otherwise. -/
def validate_subnets (parse : String → Except String IpNetwork)
    (display : IpNetwork → String) (ips : List String) (strict : Bool) :
    Except AppError (Option (List IpNetwork)) :=
  (validateLoop parse display strict ips).map
    (fun parsed => if parsed.isEmpty then none else some parsed)

/-- The outcome of examining a single entry: `none` when the entry parses
and is network-aligned, otherwise the `AppError` strict mode would raise. -/
def entryError (parse : String → Except String IpNetwork)
    (display : IpNetwork → String) (s : String) : Option AppError :=
  match parse s with
  | .error e => some ⟨.ParseError, e⟩
  | .ok p =>
      if p.isNetwork then none
      else some ⟨.ParseError, "invalid ip: " ++ display p ++ "; not a network"⟩

/-! ## The ruleset synthesizer (`src/nftables/builder.rs`, `src/nftables/config.rs`)

The embedding keeps exactly the object fields the builder sets: constant
fields shared by every emitted object (family `inet`, chain type `filter`,
chain policy `accept`, the set `interval` flag, match operator `==`) are
left implicit in the constructors. -/

inductive RuleProto where
  | ip
  | ip6
deriving DecidableEq, Repr

inductive RuleDirection where
  | saddr
  | daddr
deriving DecidableEq, Repr

/-- Rendering of `Display for RuleProto`. -/
def RuleProto.str : RuleProto → String
  | .ip => "ip"
  | .ip6 => "ip6"

/-- Rendering of `Display for RuleDirection`. -/
def RuleDirection.str : RuleDirection → String
  | .saddr => "saddr"
  | .daddr => "daddr"

inductive NfHook where
  | prerouting
  | postrouting
deriving DecidableEq, Repr

inductive SetType where
  | ipv4Addr
  | ipv6Addr
deriving DecidableEq, Repr

/-- A set element produced by `get_nft_expressions`: a `Prefix` expression
holding the network address string and the prefix length. -/
structure PrefixExpr where
  addr : String
  len : Nat
deriving DecidableEq, Repr

/-- One statement of a rule's `expr` array, restricted to the constructors
`build_rule` emits: the payload match against `"@set"`, the optional log
statement with its prefix text, and the verdict. -/
inductive RuleStatement where
  | matchSt (protocol field setRef : String)
  | logSt (logText : String)
  | acceptSt
  | dropSt
deriving DecidableEq, Repr

/-- A ruleset object (`NfObject`), restricted to the variants the builder
emits. -/
inductive NfObject where
  /-- Case `NfObject::CmdObject(Delete(Table ...))`. -/
  | deleteTable (name : String)
  /-- Case `NfObject::ListObject(Table ...)`. -/
  | createTable (name : String)
  /-- Case `NfObject::ListObject(Chain ...)` with its hook and priority. -/
  | chainDecl (table chain : String) (hook : NfHook) (prio : Int)
  /-- Case `NfObject::ListObject(Set ...)` with the element type. -/
  | setDecl (table name : String) (stype : SetType)
  /-- Case `NfObject::ListObject(Element ...)`: the element payload of a set. -/
  | elemDecl (table name : String) (elems : List PrefixExpr)
  /-- Case `NfObject::ListObject(Rule ...)`. -/
  | ruleDecl (table chain : String) (expr : List RuleStatement) (comment : String)
deriving DecidableEq, Repr

/-- Embeds `NftRulesetBuilder` (`src/nftables/builder.rs`): a growing object list. -/
structure NftRulesetBuilder where
  objects : List NfObject
deriving DecidableEq, Repr

def NftRulesetBuilder.new : NftRulesetBuilder := ⟨[]⟩

def NftRulesetBuilder.delete_table (b : NftRulesetBuilder) (table_name : String) :
    NftRulesetBuilder :=
  ⟨b.objects ++ [.deleteTable table_name]⟩

def NftRulesetBuilder.build_table (b : NftRulesetBuilder) (table_name : String) :
    NftRulesetBuilder :=
  ⟨b.objects ++ [.createTable table_name]⟩

def NftRulesetBuilder.build_chain (b : NftRulesetBuilder) (table_name chain_name : String)
    (chain_hook : NfHook) (priority : Int) : NftRulesetBuilder :=
  ⟨b.objects ++ [.chainDecl table_name chain_name chain_hook priority]⟩

def NftRulesetBuilder.build_set (b : NftRulesetBuilder) (table_name set_name : String)
    (set_type : SetType) : NftRulesetBuilder :=
  ⟨b.objects ++ [.setDecl table_name set_name set_type]⟩

def NftRulesetBuilder.build_set_elements (b : NftRulesetBuilder)
    (table_name set_name : String) (set_elements : List PrefixExpr) : NftRulesetBuilder :=
  ⟨b.objects ++ [.elemDecl table_name set_name set_elements]⟩

/-- Embeds `build_rule`: the match statement, then — only when `log` is set — a log
statement with prefix `"{table};{chain};{set};dropped: "`, then the verdict. -/
def NftRulesetBuilder.build_rule (b : NftRulesetBuilder) (table_name chain_name set_name : String)
    (rule_proto : RuleProto) (rule_direction : RuleDirection) (log : Bool)
    (verdict : RuleStatement) (comment : String) : NftRulesetBuilder :=
  ⟨b.objects ++ [.ruleDecl table_name chain_name
    ([RuleStatement.matchSt rule_proto.str rule_direction.str ("@" ++ set_name)] ++
      (if log then
        [RuleStatement.logSt (table_name ++ ";" ++ chain_name ++ ";" ++ set_name ++ ";dropped: ")]
       else []) ++
      [verdict]) comment]⟩

def NftRulesetBuilder.build_ruleset (b : NftRulesetBuilder) : List NfObject :=
  b.objects

/-- Embeds `CustomSet` (`src/set/custom_set.rs`): a named set with optional
per-family element payloads. -/
structure CustomSet where
  set_name : String
  ipv4_elements : Option (List PrefixExpr)
  ipv6_elements : Option (List PrefixExpr)
deriving DecidableEq, Repr

/-- Embeds `NftConfig` (`src/nftables/config.rs`). -/
structure NftConfig where
  table_name : String
  prerouting_chain : String
  postrouting_chain : String
  blocklist_set_name : String
  anti_lockout_set : CustomSet
  custom_blocklist_set : CustomSet
deriving DecidableEq, Repr

/-- Embeds `NftConfig::generate_ruleset` (`src/nftables/config.rs` lines 105–310):
table create/delete/create, the two chains, the six set declarations, the
four anti-lockout accept rules (no logging), the four custom-blocklist drop
rules and the four fetched-blocklist drop rules (all with logging), and
finally the element payloads of every present set. -/
def NftConfig.generate_ruleset (cfg : NftConfig)
    (ipv4_elements ipv6_elements : Option (List PrefixExpr)) : List NfObject :=
  let ipv4_blocklist_set_name := cfg.blocklist_set_name ++ "_ipv4"
  let ipv6_blocklist_set_name := cfg.blocklist_set_name ++ "_ipv6"
  let ipv4_anti_lockout_set_name := cfg.anti_lockout_set.set_name ++ "_ipv4"
  let ipv6_anti_lockout_set_name := cfg.anti_lockout_set.set_name ++ "_ipv6"
  let ipv4_custom_blocklist_set_name := cfg.custom_blocklist_set.set_name ++ "_ipv4"
  let ipv6_custom_blocklist_set_name := cfg.custom_blocklist_set.set_name ++ "_ipv6"
  let table := cfg.table_name
  let builder := NftRulesetBuilder.new
    |>.build_table table
    |>.delete_table table
    |>.build_table table
    |>.build_chain table cfg.prerouting_chain .prerouting (-300)
    |>.build_chain table cfg.postrouting_chain .postrouting 300
    |>.build_set table ipv4_anti_lockout_set_name .ipv4Addr
    |>.build_set table ipv6_anti_lockout_set_name .ipv6Addr
    |>.build_set table ipv4_blocklist_set_name .ipv4Addr
    |>.build_set table ipv6_blocklist_set_name .ipv6Addr
    |>.build_set table ipv4_custom_blocklist_set_name .ipv4Addr
    |>.build_set table ipv6_custom_blocklist_set_name .ipv6Addr
    |>.build_rule table cfg.prerouting_chain ipv4_anti_lockout_set_name .ip .saddr false
        .acceptSt "prerouting ipv4 anti-lockout rule"
    |>.build_rule table cfg.prerouting_chain ipv6_anti_lockout_set_name .ip6 .saddr false
        .acceptSt "prerouting ipv6 anti-lockout rule"
    |>.build_rule table cfg.postrouting_chain ipv4_anti_lockout_set_name .ip .daddr false
        .acceptSt "postrouting ipv4 anti-lockout rule"
    |>.build_rule table cfg.postrouting_chain ipv6_anti_lockout_set_name .ip6 .daddr false
        .acceptSt "postrouting ipv6 anti-lockout rule"
    |>.build_rule table cfg.prerouting_chain ipv4_custom_blocklist_set_name .ip .saddr true
        .dropSt "prerouting ipv4 custom blocklist rule"
    |>.build_rule table cfg.prerouting_chain ipv6_custom_blocklist_set_name .ip6 .saddr true
        .dropSt "prerouting ipv6 custom blocklist rule"
    |>.build_rule table cfg.postrouting_chain ipv4_custom_blocklist_set_name .ip .daddr true
        .dropSt "postrouting ipv4 custom blocklist rule"
    |>.build_rule table cfg.postrouting_chain ipv6_custom_blocklist_set_name .ip6 .daddr true
        .dropSt "postrouting ipv6 custom blocklist rule"
    |>.build_rule table cfg.prerouting_chain ipv4_blocklist_set_name .ip .saddr true
        .dropSt "prerouting ipv4 blocklist rule"
    |>.build_rule table cfg.prerouting_chain ipv6_blocklist_set_name .ip6 .saddr true
        .dropSt "prerouting ipv6 blocklist rule"
    |>.build_rule table cfg.postrouting_chain ipv4_blocklist_set_name .ip .daddr true
        .dropSt "postrouting ipv4 blocklist rule"
    |>.build_rule table cfg.postrouting_chain ipv6_blocklist_set_name .ip6 .daddr true
        .dropSt "postrouting ipv6 blocklist rule"
  let builder := match cfg.anti_lockout_set.ipv4_elements with
    | some e => builder.build_set_elements table ipv4_anti_lockout_set_name e
    | none => builder
  let builder := match cfg.anti_lockout_set.ipv6_elements with
    | some e => builder.build_set_elements table ipv6_anti_lockout_set_name e
    | none => builder
  let builder := match cfg.custom_blocklist_set.ipv4_elements with
    | some e => builder.build_set_elements table ipv4_custom_blocklist_set_name e
    | none => builder
  let builder := match cfg.custom_blocklist_set.ipv6_elements with
    | some e => builder.build_set_elements table ipv6_custom_blocklist_set_name e
    | none => builder
  let builder := match ipv4_elements with
    | some e => builder.build_set_elements table ipv4_blocklist_set_name e
    | none => builder
  let builder := match ipv6_elements with
    | some e => builder.build_set_elements table ipv6_blocklist_set_name e
    | none => builder
  builder.build_ruleset

/-- The configuration `NftConfig::new` builds when no environment variable
overrides anything and no anti-lockout or custom blocklist entries are
configured (`src/nftables/config.rs` lines 37–76). -/
def defaultNftConfig : NftConfig :=
  { table_name := "nftblockd"
    prerouting_chain := "prerouting"
    postrouting_chain := "postrouting"
    blocklist_set_name := "blocklist_set"
    anti_lockout_set := ⟨"anti_lockout_set", none, none⟩
    custom_blocklist_set := ⟨"custom_blocklist_set", none, none⟩ }

/-- Is this statement a log statement? -/
def isLogSt : RuleStatement → Bool
  | .logSt _ => true
  | _ => false

def isAcceptSt : RuleStatement → Bool
  | .acceptSt => true
  | _ => false

def isDropSt : RuleStatement → Bool
  | .dropSt => true
  | _ => false

/-- An anti-lockout rule of chain `c`: a rule object in `c` whose verdict is
an unconditional `accept` and whose expression carries no log statement. -/
def isAcceptNoLogRuleFor (c : String) : NfObject → Bool
  | .ruleDecl _ chain expr _ =>
      chain == c && expr.any isAcceptSt && !(expr.any isLogSt)
  | _ => false

/-- A blocklist drop rule of chain `c`: a rule object in `c` whose verdict
is `drop`. -/
def isDropRuleFor (c : String) : NfObject → Bool
  | .ruleDecl _ chain expr _ =>
      chain == c && expr.any isDropSt
  | _ => false

def isDeleteTableObj : NfObject → Bool
  | .deleteTable _ => true
  | _ => false

/-- The element-payload objects contributed by one optional element list. -/
def optElemObj (table name : String) : Option (List PrefixExpr) → List NfObject
  | some e => [.elemDecl table name e]
  | none => []

/-- The fixed leading objects of a generated ruleset: tables, chains, set
declarations and the four anti-lockout accept rules. -/
def rulesetFront (cfg : NftConfig) : List NfObject :=
  [.createTable cfg.table_name,
   .deleteTable cfg.table_name,
   .createTable cfg.table_name,
   .chainDecl cfg.table_name cfg.prerouting_chain .prerouting (-300),
   .chainDecl cfg.table_name cfg.postrouting_chain .postrouting 300,
   .setDecl cfg.table_name (cfg.anti_lockout_set.set_name ++ "_ipv4") .ipv4Addr,
   .setDecl cfg.table_name (cfg.anti_lockout_set.set_name ++ "_ipv6") .ipv6Addr,
   .setDecl cfg.table_name (cfg.blocklist_set_name ++ "_ipv4") .ipv4Addr,
   .setDecl cfg.table_name (cfg.blocklist_set_name ++ "_ipv6") .ipv6Addr,
   .setDecl cfg.table_name (cfg.custom_blocklist_set.set_name ++ "_ipv4") .ipv4Addr,
   .setDecl cfg.table_name (cfg.custom_blocklist_set.set_name ++ "_ipv6") .ipv6Addr,
   .ruleDecl cfg.table_name cfg.prerouting_chain
     [.matchSt "ip" "saddr" ("@" ++ (cfg.anti_lockout_set.set_name ++ "_ipv4")), .acceptSt]
     "prerouting ipv4 anti-lockout rule",
   .ruleDecl cfg.table_name cfg.prerouting_chain
     [.matchSt "ip6" "saddr" ("@" ++ (cfg.anti_lockout_set.set_name ++ "_ipv6")), .acceptSt]
     "prerouting ipv6 anti-lockout rule",
   .ruleDecl cfg.table_name cfg.postrouting_chain
     [.matchSt "ip" "daddr" ("@" ++ (cfg.anti_lockout_set.set_name ++ "_ipv4")), .acceptSt]
     "postrouting ipv4 anti-lockout rule",
   .ruleDecl cfg.table_name cfg.postrouting_chain
     [.matchSt "ip6" "daddr" ("@" ++ (cfg.anti_lockout_set.set_name ++ "_ipv6")), .acceptSt]
     "postrouting ipv6 anti-lockout rule"]

/-- The eight drop rules of a generated ruleset, in emission order. -/
def rulesetDrops (cfg : NftConfig) : List NfObject :=
  [.ruleDecl cfg.table_name cfg.prerouting_chain
     [.matchSt "ip" "saddr" ("@" ++ (cfg.custom_blocklist_set.set_name ++ "_ipv4")),
      .logSt (cfg.table_name ++ ";" ++ cfg.prerouting_chain ++ ";" ++
        (cfg.custom_blocklist_set.set_name ++ "_ipv4") ++ ";dropped: "),
      .dropSt]
     "prerouting ipv4 custom blocklist rule",
   .ruleDecl cfg.table_name cfg.prerouting_chain
     [.matchSt "ip6" "saddr" ("@" ++ (cfg.custom_blocklist_set.set_name ++ "_ipv6")),
      .logSt (cfg.table_name ++ ";" ++ cfg.prerouting_chain ++ ";" ++
        (cfg.custom_blocklist_set.set_name ++ "_ipv6") ++ ";dropped: "),
      .dropSt]
     "prerouting ipv6 custom blocklist rule",
   .ruleDecl cfg.table_name cfg.postrouting_chain
     [.matchSt "ip" "daddr" ("@" ++ (cfg.custom_blocklist_set.set_name ++ "_ipv4")),
      .logSt (cfg.table_name ++ ";" ++ cfg.postrouting_chain ++ ";" ++
        (cfg.custom_blocklist_set.set_name ++ "_ipv4") ++ ";dropped: "),
      .dropSt]
     "postrouting ipv4 custom blocklist rule",
   .ruleDecl cfg.table_name cfg.postrouting_chain
     [.matchSt "ip6" "daddr" ("@" ++ (cfg.custom_blocklist_set.set_name ++ "_ipv6")),
      .logSt (cfg.table_name ++ ";" ++ cfg.postrouting_chain ++ ";" ++
        (cfg.custom_blocklist_set.set_name ++ "_ipv6") ++ ";dropped: "),
      .dropSt]
     "postrouting ipv6 custom blocklist rule",
   .ruleDecl cfg.table_name cfg.prerouting_chain
     [.matchSt "ip" "saddr" ("@" ++ (cfg.blocklist_set_name ++ "_ipv4")),
      .logSt (cfg.table_name ++ ";" ++ cfg.prerouting_chain ++ ";" ++
        (cfg.blocklist_set_name ++ "_ipv4") ++ ";dropped: "),
      .dropSt]
     "prerouting ipv4 blocklist rule",
   .ruleDecl cfg.table_name cfg.prerouting_chain
     [.matchSt "ip6" "saddr" ("@" ++ (cfg.blocklist_set_name ++ "_ipv6")),
      .logSt (cfg.table_name ++ ";" ++ cfg.prerouting_chain ++ ";" ++
        (cfg.blocklist_set_name ++ "_ipv6") ++ ";dropped: "),
      .dropSt]
     "prerouting ipv6 blocklist rule",
   .ruleDecl cfg.table_name cfg.postrouting_chain
     [.matchSt "ip" "daddr" ("@" ++ (cfg.blocklist_set_name ++ "_ipv4")),
      .logSt (cfg.table_name ++ ";" ++ cfg.postrouting_chain ++ ";" ++
        (cfg.blocklist_set_name ++ "_ipv4") ++ ";dropped: "),
      .dropSt]
     "postrouting ipv4 blocklist rule",
   .ruleDecl cfg.table_name cfg.postrouting_chain
     [.matchSt "ip6" "daddr" ("@" ++ (cfg.blocklist_set_name ++ "_ipv6")),
      .logSt (cfg.table_name ++ ";" ++ cfg.postrouting_chain ++ ";" ++
        (cfg.blocklist_set_name ++ "_ipv6") ++ ";dropped: "),
      .dropSt]
     "postrouting ipv6 blocklist rule"]

/-- The trailing element-payload objects of a generated ruleset. -/
def rulesetTail (cfg : NftConfig) (ipv4_elements ipv6_elements : Option (List PrefixExpr)) :
    List NfObject :=
  optElemObj cfg.table_name (cfg.anti_lockout_set.set_name ++ "_ipv4")
      cfg.anti_lockout_set.ipv4_elements ++
    optElemObj cfg.table_name (cfg.anti_lockout_set.set_name ++ "_ipv6")
      cfg.anti_lockout_set.ipv6_elements ++
    optElemObj cfg.table_name (cfg.custom_blocklist_set.set_name ++ "_ipv4")
      cfg.custom_blocklist_set.ipv4_elements ++
    optElemObj cfg.table_name (cfg.custom_blocklist_set.set_name ++ "_ipv6")
      cfg.custom_blocklist_set.ipv6_elements ++
    optElemObj cfg.table_name (cfg.blocklist_set_name ++ "_ipv4") ipv4_elements ++
    optElemObj cfg.table_name (cfg.blocklist_set_name ++ "_ipv6") ipv6_elements

/-! ## Structural view of a trie, for the nesting invariant (C8) -/

/-- Relation stating that `c` is a direct child of `n`. -/
inductive ChildOf : TrieNode → TrieNode → Prop where
  | left (l r : TrieNode) (b : Bool) : ChildOf l (TrieNode.mk l r b)
  | right (l r : TrieNode) (b : Bool) : ChildOf r (TrieNode.mk l r b)

/-- Relation stating that `d` occurs strictly below `n`. -/
def StrictDescOf (d n : TrieNode) : Prop := Relation.TransGen ChildOf d n

/-- Relation stating that `d` occurs in the subtree rooted at `n` (possibly `d = n`). -/
def DescOf (d n : TrieNode) : Prop := Relation.ReflTransGen ChildOf d n

/-- Does the subtree rooted here contain any node with `is_subnet = true`? -/
def subtreeHasMark : TrieNode → Bool
  | .nil => false
  | .mk l r b => b || subtreeHasMark l || subtreeHasMark r

/-- Recursive form of the nesting invariant: a marked node has no marked
node anywhere below it. -/
def nodeInv : TrieNode → Bool
  | .nil => true
  | .mk l r b => (!(b && (subtreeHasMark l || subtreeHasMark r))) && nodeInv l && nodeInv r

/-- A sequence of insertions applied to a trie. -/
def insertAll (t : TrieNode) (ps : List (List Bool)) : TrieNode :=
  ps.foldl (fun t p => (t.insert p).1) t

/-! ## Analysis of the trie

`pathBlocked t q` holds when descending along `q` from `t` meets a node
with `is_subnet = true` (possibly the endpoint of `q`): exactly the
condition under which `TrieNode.insert` returns `false`. -/

def pathBlocked : TrieNode → List Bool → Bool
  | n, [] => n.is_subnet
  | n, bit :: rest => n.is_subnet || pathBlocked (n.getChild bit) rest

@[simp] theorem is_subnet_nil : TrieNode.nil.is_subnet = false := rfl

@[simp] theorem is_subnet_mk (l r : TrieNode) (b : Bool) :
    (TrieNode.mk l r b).is_subnet = b := rfl

@[simp] theorem getChild_nil (bit : Bool) : TrieNode.nil.getChild bit = .nil := by
  cases bit <;> rfl

@[simp] theorem is_subnet_setChild (n : TrieNode) (bit : Bool) (c : TrieNode) :
    (n.setChild bit c).is_subnet = n.is_subnet := by
  cases n <;> cases bit <;> rfl

@[simp] theorem getChild_setChild_self (l r : TrieNode) (b bit : Bool) (c : TrieNode) :
    ((TrieNode.mk l r b).setChild bit c).getChild bit = c := by
  cases bit <;> rfl

theorem getChild_setChild_other (l r : TrieNode) (b : Bool) {bit bit' : Bool}
    (h : bit ≠ bit') (c : TrieNode) :
    ((TrieNode.mk l r b).setChild bit c).getChild bit' = (TrieNode.mk l r b).getChild bit' := by
  cases bit <;> cases bit' <;> first | rfl | exact absurd rfl h

@[simp] theorem setChild_getChild (n : TrieNode) (bit : Bool) :
    n.setChild bit (n.getChild bit) = n := by
  cases n <;> cases bit <;> rfl

theorem insert_nil_path (n : TrieNode) :
    n.insert [] = if n.is_subnet then (n, false) else (TrieNode.mk .nil .nil true, true) := rfl

theorem insert_cons_path (n : TrieNode) (bit : Bool) (rest : List Bool) :
    n.insert (bit :: rest) =
      if n.is_subnet then (n, false)
      else (n.setChild bit (((n.getChild bit).orNew).insert rest).1,
            (((n.getChild bit).orNew).insert rest).2) := rfl

theorem pathBlocked_cons (n : TrieNode) (bit : Bool) (rest : List Bool) :
    pathBlocked n (bit :: rest) = (n.is_subnet || pathBlocked (n.getChild bit) rest) := rfl

@[simp] theorem pathBlocked_nil (q : List Bool) : pathBlocked .nil q = false := by
  induction q with
  | nil => rfl
  | cons b rest ih => simp [pathBlocked_cons, ih]

@[simp] theorem pathBlocked_new (q : List Bool) : pathBlocked TrieNode.new q = false := by
  cases q with
  | nil => rfl
  | cons b rest => cases b <;> simp [pathBlocked_cons, TrieNode.new, TrieNode.getChild]

@[simp] theorem pathBlocked_orNew (c : TrieNode) (q : List Bool) :
    pathBlocked c.orNew q = pathBlocked c q := by
  cases c with
  | nil => simp [TrieNode.orNew]
  | mk l r b => rfl

theorem orNew_ne_nil (c : TrieNode) : c.orNew ≠ .nil := by
  cases c <;> simp [TrieNode.orNew, TrieNode.new]

theorem insert_fst_ne_nil {t : TrieNode} (ht : t ≠ .nil) (q : List Bool) :
    (t.insert q).1 ≠ .nil := by
  cases t with
  | nil => exact absurd rfl ht
  | mk l r b =>
      cases q with
      | nil =>
          cases b <;> simp [insert_nil_path]
      | cons bit rest =>
          cases b <;> cases bit <;> simp [insert_cons_path, TrieNode.setChild]

/-- The `bool` returned by `insert` is the negation of `pathBlocked`. -/
theorem insert_snd (t : TrieNode) (q : List Bool) :
    (t.insert q).2 = !pathBlocked t q := by
  induction q generalizing t with
  | nil =>
      cases hs : t.is_subnet <;> simp [insert_nil_path, pathBlocked, hs]
  | cons bit rest ih =>
      cases hs : t.is_subnet <;>
        simp [insert_cons_path, pathBlocked_cons, hs, ih]

/-- A failing `insert` leaves the trie unchanged: a descent that meets a
marked node only ever traverses pre-existing nodes. -/
theorem insert_fst_of_blocked (t : TrieNode) (q : List Bool)
    (h : pathBlocked t q = true) : (t.insert q).1 = t := by
  induction q generalizing t with
  | nil =>
      simp only [pathBlocked] at h
      simp [insert_nil_path, h]
  | cons bit rest ih =>
      cases hs : t.is_subnet with
      | true => simp [insert_cons_path, hs]
      | false =>
          rw [pathBlocked_cons, hs, Bool.false_or] at h
          have hchild : t.getChild bit ≠ .nil := by
            intro hc
            rw [hc, pathBlocked_nil] at h
            exact Bool.false_ne_true h
          have horn : (t.getChild bit).orNew = t.getChild bit := by
            cases hc : t.getChild bit with
            | nil => exact absurd hc hchild
            | mk l r b => rfl
          have hrec : ((t.getChild bit).insert rest).1 = t.getChild bit := ih _ h
          simp [insert_cons_path, hs, horn, hrec]

/-- A successful `insert` of `q` blocks exactly the extensions of `q`
in addition to the already blocked paths. -/
theorem pathBlocked_insert {t : TrieNode} (ht : t ≠ .nil) (q : List Bool)
    (h : pathBlocked t q = false) (r : List Bool) :
    pathBlocked (t.insert q).1 r = (pathBlocked t r || q.isPrefixOf r) := by
  induction q generalizing t r with
  | nil =>
      simp only [pathBlocked] at h
      cases r <;> simp [insert_nil_path, h, pathBlocked, pathBlocked_cons, List.isPrefixOf]
  | cons bit rest ih =>
      cases t with
      | nil => exact absurd rfl ht
      | mk l r' b =>
          rw [pathBlocked_cons, Bool.or_eq_false_iff] at h
          obtain ⟨hb, hrest⟩ := h
          simp only [is_subnet_mk] at hb
          subst hb
          have hrest' : pathBlocked ((TrieNode.mk l r' false).getChild bit).orNew rest = false := by
            rwa [pathBlocked_orNew]
          have hrec := ih (orNew_ne_nil _) hrest'
          cases r with
          | nil =>
              simp [insert_cons_path, pathBlocked, List.isPrefixOf]
          | cons bit' rtail =>
              by_cases hbit : bit = bit'
              · subst hbit
                simp [insert_cons_path, pathBlocked_cons, hrec, List.isPrefixOf, Bool.or_assoc]
              · have hbeq : (bit == bit') = false := by
                  cases bit <;> cases bit' <;> simp_all
                simp [insert_cons_path, pathBlocked_cons,
                  getChild_setChild_other l r' false hbit, List.isPrefixOf, hbeq]

theorem dedupeLoop_eq_greedySel (l : List IpNetwork) :
    ∀ (t : TrieNode) (acc : List IpNetwork) (chosen : List (List Bool)),
      t ≠ .nil →
      (∀ r, pathBlocked t r = chosen.any (fun p => p.isPrefixOf r)) →
      dedupeLoop t acc l = acc ++ greedySel chosen l := by
  induction l with
  | nil => intro t acc chosen _ _; simp [dedupeLoop, greedySel]
  | cons x xs ih =>
      intro t acc chosen ht hinv
      by_cases hblocked : pathBlocked t x.ipPath = true
      · have h2 : (t.insert x.ipPath).2 = false := by simp [insert_snd, hblocked]
        have h1 : (t.insert x.ipPath).1 = t := insert_fst_of_blocked t _ hblocked
        have hcond : chosen.any (fun p => p.isPrefixOf x.ipPath) = true := by
          rw [← hinv]; exact hblocked
        simp only [dedupeLoop, h1, h2, Bool.false_eq_true, if_false, greedySel, hcond, if_true]
        exact ih t acc chosen ht hinv
      · simp only [Bool.not_eq_true] at hblocked
        have h2 : (t.insert x.ipPath).2 = true := by simp [insert_snd, hblocked]
        have hcond : chosen.any (fun p => p.isPrefixOf x.ipPath) = false := by
          rw [← hinv]; exact hblocked
        simp only [dedupeLoop, h2, if_true, greedySel, hcond, Bool.false_eq_true, if_false]
        have hinv' : ∀ r, pathBlocked (t.insert x.ipPath).1 r =
            (x.ipPath :: chosen).any (fun p => p.isPrefixOf r) := by
          intro r
          rw [pathBlocked_insert ht x.ipPath hblocked r, hinv r]
          simp [List.any_cons, Bool.or_comm]
        have := ih (t.insert x.ipPath).1 (acc ++ [x]) (x.ipPath :: chosen)
          (insert_fst_ne_nil ht _) hinv'
        rw [this, List.append_assoc]
        rfl

/-- The function `deduplicate` computes the greedy prefix-path selection over the
stably sorted input. -/
theorem deduplicate_eq_greedySel (l : List IpNetwork) :
    deduplicate (some l) = some (greedySel [] (sortByPlen l)) := by
  have := dedupeLoop_eq_greedySel (sortByPlen l) TrieNode.new [] []
    (by simp [TrieNode.new]) (by intro r; simp [pathBlocked_new])
  simpa [deduplicate] using this

/-! ## The stable sort by prefix length -/

theorem insertByPlen_perm (x : IpNetwork) (l : List IpNetwork) :
    List.Perm (insertByPlen x l) (x :: l) := by
  induction l with
  | nil => simp [insertByPlen]
  | cons y ys ih =>
      by_cases h : x.plen ≤ y.plen
      · simp [insertByPlen, h]
      · simp only [insertByPlen, h, if_false]
        exact (ih.cons y).trans (List.Perm.swap x y ys)

theorem sortByPlen_perm (l : List IpNetwork) : List.Perm (sortByPlen l) l := by
  induction l with
  | nil => simp [sortByPlen]
  | cons x xs ih =>
      exact (insertByPlen_perm x (sortByPlen xs)).trans (ih.cons x)

theorem mem_insertByPlen {a x : IpNetwork} {l : List IpNetwork} :
    a ∈ insertByPlen x l ↔ a = x ∨ a ∈ l := by
  rw [(insertByPlen_perm x l).mem_iff]
  simp

theorem insertByPlen_sorted {l : List IpNetwork}
    (h : l.Pairwise (fun a b => a.plen ≤ b.plen)) (x : IpNetwork) :
    (insertByPlen x l).Pairwise (fun a b => a.plen ≤ b.plen) := by
  induction l with
  | nil => simp [insertByPlen]
  | cons y ys ih =>
      rw [List.pairwise_cons] at h
      obtain ⟨hy, hys⟩ := h
      by_cases hxy : x.plen ≤ y.plen
      · simp only [insertByPlen, hxy, if_true]
        refine List.Pairwise.cons ?_ (List.Pairwise.cons hy hys)
        intro b hb
        rcases List.mem_cons.mp hb with rfl | hb
        · exact hxy
        · exact le_trans hxy (hy b hb)
      · simp only [insertByPlen, hxy, if_false]
        refine List.Pairwise.cons ?_ (ih hys)
        intro b hb
        rcases mem_insertByPlen.mp hb with rfl | hb
        · omega
        · exact hy b hb

theorem sortByPlen_sorted (l : List IpNetwork) :
    (sortByPlen l).Pairwise (fun a b => a.plen ≤ b.plen) := by
  induction l with
  | nil => simp [sortByPlen]
  | cons x xs ih => exact insertByPlen_sorted ih x

theorem sortByPlen_eq_self {l : List IpNetwork}
    (h : l.Pairwise (fun a b => a.plen ≤ b.plen)) : sortByPlen l = l := by
  induction l with
  | nil => rfl
  | cons x xs ih =>
      rw [List.pairwise_cons] at h
      obtain ⟨hx, hxs⟩ := h
      rw [sortByPlen, ih hxs]
      cases xs with
      | nil => rfl
      | cons y ys =>
          simp [insertByPlen, hx y (by simp)]

theorem filter_insertByPlen (x : IpNetwork) (l : List IpNetwork) (k : Nat) :
    (insertByPlen x l).filter (fun y => y.plen == k) =
      if x.plen == k then x :: l.filter (fun y => y.plen == k)
      else l.filter (fun y => y.plen == k) := by
  induction l with
  | nil => simp [insertByPlen, List.filter_cons]
  | cons y ys ih =>
      by_cases hxy : x.plen ≤ y.plen
      · simp [insertByPlen, hxy, List.filter_cons]
      · have hstep : insertByPlen x (y :: ys) = y :: insertByPlen x ys := by
          simp [insertByPlen, hxy]
        rw [hstep, List.filter_cons, ih]
        by_cases hx : x.plen = k
        · have hy : (y.plen == k) = false := by
            have : y.plen ≠ k := by omega
            simp [this]
          simp [hy, hx, List.filter_cons]
        · have hx' : (x.plen == k) = false := by simp [hx]
          simp [hx', List.filter_cons]

/-- Stability of the sort: the elements carrying any fixed key appear in
the sorted output exactly as they appear in the input. -/
theorem filter_sortByPlen (l : List IpNetwork) (k : Nat) :
    (sortByPlen l).filter (fun y => y.plen == k) = l.filter (fun y => y.plen == k) := by
  induction l with
  | nil => rfl
  | cons x xs ih =>
      rw [sortByPlen, filter_insertByPlen, ih, List.filter_cons]

/-! ## Properties of the greedy selection -/

theorem greedySel_sublist (chosen : List (List Bool)) (l : List IpNetwork) :
    (greedySel chosen l).Sublist l := by
  induction l generalizing chosen with
  | nil => simp [greedySel]
  | cons x xs ih =>
      by_cases h : chosen.any (fun p => p.isPrefixOf x.ipPath) = true
      · simp only [greedySel, h, if_true]
        exact (ih chosen).cons x
      · simp only [greedySel, h, Bool.false_eq_true, if_false]
        exact (ih (x.ipPath :: chosen)).cons₂ x

theorem greedySel_antichain (l : List IpNetwork) : ∀ chosen : List (List Bool),
    ((greedySel chosen l).Pairwise
        (fun a b => a.ipPath.isPrefixOf b.ipPath = false)) ∧
      (∀ x ∈ greedySel chosen l, ∀ p ∈ chosen, p.isPrefixOf x.ipPath = false) := by
  induction l with
  | nil => intro chosen; simp [greedySel]
  | cons x xs ih =>
      intro chosen
      by_cases h : chosen.any (fun p => p.isPrefixOf x.ipPath) = true
      · simpa [greedySel, h] using ih chosen
      · have hx : ∀ p ∈ chosen, p.isPrefixOf x.ipPath = false := by
          intro p hp
          have hany : chosen.any (fun p => p.isPrefixOf x.ipPath) = false := by
            simpa using h
          exact Bool.eq_false_iff.mpr (List.any_eq_false.mp hany p hp)
        obtain ⟨hpair, hch⟩ := ih (x.ipPath :: chosen)
        have hsel : greedySel chosen (x :: xs) = x :: greedySel (x.ipPath :: chosen) xs := by
          simp [greedySel, h]
        rw [hsel]
        constructor
        · refine List.Pairwise.cons ?_ hpair
          intro b hb
          exact hch b hb x.ipPath (by simp)
        · intro y hy p hp
          rcases List.mem_cons.mp hy with rfl | hy
          · exact hx p hp
          · exact hch y hy p (by simp [hp])

theorem greedySel_eq_self (l : List IpNetwork) : ∀ chosen : List (List Bool),
    (∀ p ∈ chosen, ∀ x ∈ l, p.isPrefixOf x.ipPath = false) →
    l.Pairwise (fun a b => a.ipPath.isPrefixOf b.ipPath = false) →
    greedySel chosen l = l := by
  induction l with
  | nil => intro chosen _ _; rfl
  | cons x xs ih =>
      intro chosen hch hpair
      have hcond : chosen.any (fun p => p.isPrefixOf x.ipPath) = false :=
        List.any_eq_false.mpr (fun p hp => by simp [hch p hp x (by simp)])
      rw [List.pairwise_cons] at hpair
      obtain ⟨hx, hxs⟩ := hpair
      simp only [greedySel, hcond, Bool.false_eq_true, if_false]
      congr 1
      refine ih (x.ipPath :: chosen) ?_ hxs
      intro p hp y hy
      rcases List.mem_cons.mp hp with rfl | hp
      · exact hx y hy
      · exact hch p hp y (by simp [hy])

/-! ## Arithmetic facts about subnets -/

theorem networkAddr_eq_div_mul (x : IpNetwork) :
    x.networkAddr = x.ip / 2 ^ (x.w - x.plen) * 2 ^ (x.w - x.plen) := by
  simp [IpNetwork.networkAddr, Nat.shiftRight_eq_div_pow, Nat.shiftLeft_eq]

theorem dvd_networkAddr (x : IpNetwork) : 2 ^ (x.w - x.plen) ∣ x.networkAddr := by
  rw [networkAddr_eq_div_mul]
  exact dvd_mul_left _ _

theorem networkAddr_lt (x : IpNetwork) (h : x.ip < 2 ^ x.w) : x.networkAddr < 2 ^ x.w :=
  lt_of_le_of_lt (by rw [networkAddr_eq_div_mul]; exact Nat.div_mul_le_self _ _) h

theorem inRange_networkAddr (x : IpNetwork) : x.inRange x.networkAddr := rfl

theorem isNetwork_eq {x : IpNetwork} (h : x.isNetwork = true) : x.networkAddr = x.ip := by
  simpa [IpNetwork.isNetwork] using h

/-- If every address of `B` belongs to `A`, then `A` is at most as specific
as `B`. -/
theorem plen_le_of_contained {A B : IpNetwork} (hw : B.w = A.w)
    (hwfA : A.Wf) (hwfB : B.Wf)
    (hsub : ∀ a, B.inRange a → A.inRange a) : A.plen ≤ B.plen := by
  by_contra hgt
  push_neg at hgt
  have hsAB : A.w - A.plen < B.w - B.plen := by
    obtain ⟨_, hA⟩ := hwfA
    omega
  obtain ⟨q, hq⟩ := dvd_networkAddr B
  have hmemB : B.inRange (B.networkAddr + 2 ^ (A.w - A.plen)) := by
    unfold IpNetwork.inRange
    rw [hq, Nat.mul_add_div (Nat.two_pow_pos _),
      Nat.div_eq_of_lt (Nat.pow_lt_pow_right one_lt_two hsAB),
      Nat.mul_div_cancel_left _ (Nat.two_pow_pos _)]
    omega
  have h1 := hsub _ hmemB
  have h2 := hsub _ (inRange_networkAddr B)
  unfold IpNetwork.inRange at h1 h2
  rw [Nat.add_div_right _ (Nat.two_pow_pos _)] at h1
  omega

theorem testBit_eq_of_div_eq {a b s : Nat} (h : a / 2 ^ s = b / 2 ^ s)
    {k : Nat} (hk : s ≤ k) : a.testBit k = b.testBit k := by
  have ha : a >>> s = b >>> s := by
    rw [Nat.shiftRight_eq_div_pow, Nat.shiftRight_eq_div_pow]; exact h
  have h1 : a.testBit (s + (k - s)) = b.testBit (s + (k - s)) := by
    rw [← Nat.testBit_shiftRight, ← Nat.testBit_shiftRight, ha]
  rwa [Nat.add_sub_cancel' hk] at h1

theorem div_pow_eq_of_testBit {a b s w : Nat} (ha : a < 2 ^ w) (hb : b < 2 ^ w)
    (h : ∀ k, s ≤ k → k < w → a.testBit k = b.testBit k) :
    a / 2 ^ s = b / 2 ^ s := by
  rw [← Nat.shiftRight_eq_div_pow, ← Nat.shiftRight_eq_div_pow]
  apply Nat.eq_of_testBit_eq
  intro j
  rw [Nat.testBit_shiftRight, Nat.testBit_shiftRight]
  by_cases hj : s + j < w
  · exact h (s + j) (Nat.le_add_right s j) hj
  · push_neg at hj
    have hle : (2 : Nat) ^ w ≤ 2 ^ (s + j) := Nat.pow_le_pow_right (by omega) hj
    rw [Nat.testBit_eq_false_of_lt (lt_of_lt_of_le ha hle),
      Nat.testBit_eq_false_of_lt (lt_of_lt_of_le hb hle)]

theorem ipPath_length (x : IpNetwork) : x.ipPath.length = x.plen := by
  simp [IpNetwork.ipPath]

theorem ipPath_isPrefixOf_of_div_eq {A B : IpNetwork} (hw : B.w = A.w)
    (hplen : A.plen ≤ B.plen)
    (hdiv : B.networkAddr / 2 ^ (A.w - A.plen) = A.networkAddr / 2 ^ (A.w - A.plen)) :
    A.ipPath.isPrefixOf B.ipPath = true := by
  rw [ List.isPrefixOf_iff_prefix]
  have htake : A.ipPath = B.ipPath.take A.plen := by
    unfold IpNetwork.ipPath
    rw [← List.map_take, List.take_range, Nat.min_eq_left hplen]
    apply List.map_congr_left
    intro i hi
    have hiA : i < A.plen := List.mem_range.mp hi
    have hk : A.w - A.plen ≤ A.w - 1 - i := by omega
    rw [hw]
    exact (testBit_eq_of_div_eq hdiv hk).symm
  rw [htake]
  exact ⟨B.ipPath.drop A.plen, List.take_append_drop _ _⟩

/-- Range containment of validated subnets yields path-prefix order in the
trie. -/
theorem isPrefixOf_of_contained {A B : IpNetwork} (hw : B.w = A.w)
    (hwfA : A.Wf) (hwfB : B.Wf)
    (hsub : ∀ a, B.inRange a → A.inRange a) :
    A.ipPath.isPrefixOf B.ipPath = true :=
  ipPath_isPrefixOf_of_div_eq hw (plen_le_of_contained hw hwfA hwfB hsub)
    (hsub B.networkAddr (inRange_networkAddr B))

/-- With equal prefix lengths, containment of validated subnets of one
family forces equality. -/
theorem eq_of_contained_of_plen_eq {A B : IpNetwork} (hw : B.w = A.w)
    (hvA : A.isNetwork = true) (hvB : B.isNetwork = true)
    (hplen : A.plen = B.plen)
    (hsub : ∀ a, B.inRange a → A.inRange a) : B = A := by
  have hdiv : B.networkAddr / 2 ^ (A.w - A.plen) = A.networkAddr / 2 ^ (A.w - A.plen) :=
    hsub B.networkAddr (inRange_networkAddr B)
  have hseq : B.w - B.plen = A.w - A.plen := by omega
  have hnB : B.networkAddr = A.networkAddr := by
    have hdvdB := dvd_networkAddr B
    rw [hseq] at hdvdB
    calc B.networkAddr
        = B.networkAddr / 2 ^ (A.w - A.plen) * 2 ^ (A.w - A.plen) :=
          (Nat.div_mul_cancel hdvdB).symm
      _ = A.networkAddr / 2 ^ (A.w - A.plen) * 2 ^ (A.w - A.plen) := by rw [hdiv]
      _ = A.networkAddr := Nat.div_mul_cancel (dvd_networkAddr A)
  have hip : B.ip = A.ip := by
    rw [← isNetwork_eq hvB, ← isNetwork_eq hvA, hnB]
  cases A
  cases B
  simp_all

/-- Two subnets whose trie paths are prefix-ordered share an address: the
narrower network's base address lies in both ranges. -/
theorem not_rangeDisjoint_of_isPrefixOf {A B : IpNetwork} (hw : B.w = A.w)
    (hwfA : A.Wf) (hwfB : B.Wf)
    (h : A.ipPath.isPrefixOf B.ipPath = true) : ¬ RangeDisjoint A B := by
  intro hdisj
  apply hdisj
  refine ⟨B.networkAddr, ?_, inRange_networkAddr B⟩
  have hpre := ( List.isPrefixOf_iff_prefix).mp h
  have hplen : A.plen ≤ B.plen := by
    have := hpre.length_le
    simpa [ipPath_length] using this
  have hbits : ∀ k, A.w - A.plen ≤ k → k < A.w →
      A.networkAddr.testBit k = B.networkAddr.testBit k := by
    intro k hk1 hk2
    have hiA : A.w - 1 - k < A.plen := by
      obtain ⟨_, hA⟩ := hwfA
      omega
    have hidx : A.w - 1 - (A.w - 1 - k) = k := by omega
    have hiA' : A.w - 1 - k < A.ipPath.length := by rw [ipPath_length]; exact hiA
    have hiB' : A.w - 1 - k < B.ipPath.length := by
      rw [ipPath_length]; omega
    have hget : A.ipPath.get ⟨A.w - 1 - k, hiA'⟩ = B.ipPath.get ⟨A.w - 1 - k, hiB'⟩ := by
      simpa using hpre.getElem hiA'
    have hL : A.ipPath.get ⟨A.w - 1 - k, hiA'⟩ = A.networkAddr.testBit k := by
      simp only [List.get_eq_getElem, IpNetwork.ipPath, List.getElem_map,
        List.getElem_range, hidx]
    have hR : B.ipPath.get ⟨A.w - 1 - k, hiB'⟩ = B.networkAddr.testBit k := by
      simp only [List.get_eq_getElem, IpNetwork.ipPath, List.getElem_map,
        List.getElem_range, hw, hidx]
    rw [hL, hR] at hget
    exact hget
  have hbB : B.networkAddr < 2 ^ A.w := by rw [← hw]; exact networkAddr_lt B hwfB.1
  have hbA : A.networkAddr < 2 ^ A.w := networkAddr_lt A hwfA.1
  unfold IpNetwork.inRange
  exact div_pow_eq_of_testBit (w := A.w) hbB hbA (fun k hk1 hk2 => (hbits k hk1 hk2).symm)

theorem rangeDisjoint_symm {A B : IpNetwork} (h : RangeDisjoint A B) : RangeDisjoint B A := by
  intro ⟨a, h1, h2⟩
  exact h ⟨a, h2, h1⟩

/-! ## The nesting invariant of the trie -/

theorem nodeInv_children {l r : TrieNode} {b : Bool} (h : nodeInv (.mk l r b) = true) :
    nodeInv l = true ∧ nodeInv r = true := by
  simp only [nodeInv, Bool.and_eq_true] at h
  exact ⟨h.1.2, h.2⟩

theorem nodeInv_orNew {c : TrieNode} (h : nodeInv c = true) : nodeInv c.orNew = true := by
  cases c with
  | nil => rfl
  | mk l r b => exact h

/-- Each insertion preserves the nesting invariant. -/
theorem nodeInv_insert {t : TrieNode} (q : List Bool) (h : nodeInv t = true) :
    nodeInv (t.insert q).1 = true := by
  induction q generalizing t with
  | nil =>
      cases hs : t.is_subnet <;> simp [insert_nil_path, hs, h, nodeInv, subtreeHasMark]
  | cons bit rest ih =>
      cases hs : t.is_subnet with
      | true => simpa [insert_cons_path, hs]
      | false =>
          cases t with
          | nil => simp [insert_cons_path, TrieNode.setChild, nodeInv]
          | mk l r b =>
              have hb : b = false := by simpa using hs
              subst hb
              obtain ⟨hl, hr⟩ := nodeInv_children h
              cases bit with
              | false =>
                  have hc := ih (nodeInv_orNew (c := (TrieNode.mk l r false).getChild false) hl)
                  simp only [insert_cons_path, hs, Bool.false_eq_true, if_false,
                    TrieNode.setChild, nodeInv, Bool.and_eq_true]
                  exact ⟨⟨by simp, hc⟩, hr⟩
              | true =>
                  have hc := ih (nodeInv_orNew (c := (TrieNode.mk l r false).getChild true) hr)
                  simp only [insert_cons_path, hs, Bool.false_eq_true, if_false,
                    TrieNode.setChild, nodeInv, Bool.and_eq_true]
                  exact ⟨⟨by simp, hl⟩, hc⟩

theorem nodeInv_insertAll (ps : List (List Bool)) :
    ∀ {t : TrieNode}, nodeInv t = true → nodeInv (insertAll t ps) = true := by
  induction ps with
  | nil => intro t h; exact h
  | cons p ps ih =>
      intro t h
      exact ih (nodeInv_insert p h)

theorem nodeInv_of_childOf {c n : TrieNode} (hc : ChildOf c n) (h : nodeInv n = true) :
    nodeInv c = true := by
  cases hc with
  | left l r b => exact (nodeInv_children h).1
  | right l r b => exact (nodeInv_children h).2

theorem nodeInv_of_desc {d n : TrieNode} (hd : DescOf d n) (h : nodeInv n = true) :
    nodeInv d = true := by
  induction hd using Relation.ReflTransGen.head_induction_on with
  | refl => exact h
  | head hstep _ ih => exact nodeInv_of_childOf hstep ih

theorem subtreeHasMark_of_desc {d c : TrieNode} (hd : DescOf d c) (h : d.is_subnet = true) :
    subtreeHasMark c = true := by
  induction hd with
  | refl =>
      cases d with
      | nil => simp at h
      | mk l r b => simp_all [subtreeHasMark]
  | tail _ hchild ih =>
      cases hchild with
      | left l r b => simp [subtreeHasMark, ih]
      | right l r b => simp [subtreeHasMark, ih]

/-- Under the recursive invariant, a marked node has no marked strict
descendant. -/
theorem no_nested_marks_of_nodeInv {n : TrieNode} (hinv : nodeInv n = true)
    (hn : n.is_subnet = true) {d : TrieNode} (hd : StrictDescOf d n) :
    d.is_subnet = false := by
  obtain ⟨c, hdc, hcn⟩ := Relation.TransGen.tail'_iff.mp hd
  by_contra hmark
  rw [Bool.not_eq_false] at hmark
  have hcm : subtreeHasMark c = true := subtreeHasMark_of_desc hdc hmark
  cases hcn with
  | left l r b =>
      have hb : b = true := by simpa using hn
      subst hb
      simp [nodeInv, hcm] at hinv
  | right l r b =>
      have hb : b = true := by simpa using hn
      subst hb
      simp [nodeInv, hcm] at hinv

/-! ## Behaviour of the validator -/

/-- Lenient validation keeps exactly the parseable, network-aligned
entries, in order, and never fails. -/
theorem validateLoop_lenient (parse : String → Except String IpNetwork)
    (display : IpNetwork → String) (ips : List String) :
    validateLoop parse display false ips =
      .ok (ips.filterMap (fun s =>
        match parse s with
        | .ok p => if p.isNetwork then some p else none
        | .error _ => none)) := by
  induction ips with
  | nil => rfl
  | cons x rest ih =>
      cases hp : parse x with
      | ok p =>
          by_cases hn : p.isNetwork = true
          · simp [validateLoop, hp, hn, ih, List.filterMap_cons, Except.map]
          · simp [validateLoop, hp, hn, ih, List.filterMap_cons]
      | error e => simp [validateLoop, hp, ih, List.filterMap_cons]

/-- Strict validation fails at the first offending entry, with exactly the
error that entry produces. -/
theorem validateLoop_strict_error (parse : String → Except String IpNetwork)
    (display : IpNetwork → String) (pre : List String) (bad : String)
    (rest : List String) {e : AppError}
    (hpre : ∀ x ∈ pre, entryError parse display x = none)
    (hbad : entryError parse display bad = some e) :
    validateLoop parse display true (pre ++ bad :: rest) = .error e := by
  induction pre with
  | nil =>
      simp only [List.nil_append]
      unfold entryError at hbad
      cases hp : parse bad with
      | ok p =>
          rw [hp] at hbad
          by_cases hn : p.isNetwork = true
          · simp [hn] at hbad
          · simp only [hn, Bool.false_eq_true, if_false, Option.some.injEq] at hbad
            simp [validateLoop, hp, hn, ← hbad]
      | error e' =>
          rw [hp] at hbad
          simp only [Option.some.injEq] at hbad
          simp [validateLoop, hp, ← hbad]
  | cons x pre ih =>
      have hx := hpre x (by simp)
      unfold entryError at hx
      cases hp : parse x with
      | ok p =>
          rw [hp] at hx
          by_cases hn : p.isNetwork = true
          · simp only [List.cons_append]
            rw [validateLoop, hp]
            simp only [hn, if_true]
            rw [ih (fun y hy => hpre y (by simp [hy]))]
            rfl
          · simp [hn] at hx
      | error e' => rw [hp] at hx; simp at hx

/-- Every error a single entry can produce carries kind `ParseError`. -/
theorem entryError_kind {parse : String → Except String IpNetwork}
    {display : IpNetwork → String} {s : String} {e : AppError}
    (h : entryError parse display s = some e) : e.error_kind = .ParseError := by
  unfold entryError at h
  cases hp : parse s with
  | ok p =>
      rw [hp] at h
      by_cases hn : p.isNetwork = true
      · simp [hn] at h
      · simp only [hn, Bool.false_eq_true, if_false, Option.some.injEq] at h
        rw [← h]
  | error e' =>
      rw [hp] at h
      simp only [Option.some.injEq] at h
      rw [← h]

/-- If some entry offends, strict validation fails with a `ParseError`. -/
theorem validate_subnets_strict_parse_error (parse : String → Except String IpNetwork)
    (display : IpNetwork → String) (ips : List String)
    (h : ∃ x ∈ ips, entryError parse display x ≠ none) :
    ∃ e, validate_subnets parse display ips true = .error e ∧
      e.error_kind = .ParseError := by
  induction ips with
  | nil => simp at h
  | cons x rest ih =>
      cases hx : entryError parse display x with
      | some e =>
          refine ⟨e, ?_, entryError_kind hx⟩
          unfold validate_subnets
          have := validateLoop_strict_error parse display [] x rest (by simp) hx
          rw [List.nil_append] at this
          rw [this]
          rfl
      | none =>
          have hxok := hx
          unfold entryError at hxok
          cases hp : parse x with
          | ok p =>
              rw [hp] at hxok
              by_cases hn : p.isNetwork = true
              · have hrest : ∃ y ∈ rest, entryError parse display y ≠ none := by
                  rcases h with ⟨y, hy, hyne⟩
                  rcases List.mem_cons.mp hy with rfl | hy
                  · exact absurd hx hyne
                  · exact ⟨y, hy, hyne⟩
                obtain ⟨e, he, hek⟩ := ih hrest
                refine ⟨e, ?_, hek⟩
                unfold validate_subnets at he ⊢
                rw [validateLoop, hp]
                simp only [hn, if_true]
                cases hrec : validateLoop parse display true rest with
                | ok l => rw [hrec] at he; simp [Except.map] at he
                | error e' =>
                    rw [hrec] at he
                    simp only [Except.map] at he ⊢
                    exact he
              · simp [hn] at hxok
          | error e' => rw [hp] at hxok; simp at hxok

/-- The shape of a successful validation: `none`, or a non-empty list. -/
theorem validate_subnets_ok_shape (parse : String → Except String IpNetwork)
    (display : IpNetwork → String) (ips : List String) (strict : Bool)
    {r : Option (List IpNetwork)}
    (h : validate_subnets parse display ips strict = .ok r) :
    r = none ∨ ∃ v, r = some v ∧ v ≠ [] := by
  unfold validate_subnets at h
  cases hl : validateLoop parse display strict ips with
  | error e => rw [hl] at h; simp [Except.map] at h
  | ok parsed =>
      rw [hl] at h
      simp only [Except.map, Except.ok.injEq] at h
      cases parsed with
      | nil => left; rw [← h]; rfl
      | cons a as =>
          right
          refine ⟨a :: as, ?_, by simp⟩
          rw [← h]
          rfl

/-! ## Structure of the generated ruleset -/

set_option maxHeartbeats 2000000 in
theorem generate_ruleset_decomp (cfg : NftConfig) (v4 v6 : Option (List PrefixExpr)) :
    cfg.generate_ruleset v4 v6 =
      rulesetFront cfg ++ (rulesetDrops cfg ++ rulesetTail cfg v4 v6) := by
  obtain ⟨tn, pre, post, bl, ⟨aln, al4, al6⟩, ⟨cbn, cb4, cb6⟩⟩ := cfg
  cases al4 <;> cases al6 <;> cases cb4 <;> cases cb6 <;> cases v4 <;> cases v6 <;>
    simp only [NftConfig.generate_ruleset, NftRulesetBuilder.new, NftRulesetBuilder.build_table,
      NftRulesetBuilder.delete_table, NftRulesetBuilder.build_chain, NftRulesetBuilder.build_set,
      NftRulesetBuilder.build_rule, NftRulesetBuilder.build_set_elements,
      NftRulesetBuilder.build_ruleset, rulesetFront, rulesetDrops, rulesetTail, optElemObj,
      RuleProto.str, RuleDirection.str, Bool.false_eq_true, if_false, if_true,
      List.nil_append, List.cons_append, List.append_assoc, List.append_nil,
      List.singleton_append]

theorem rulesetFront_no_drop (cfg : NftConfig) (c : String) :
    ∀ o ∈ rulesetFront cfg, isDropRuleFor c o = false := by
  intro o ho
  fin_cases ho <;> simp [isDropRuleFor, isDropSt]

theorem mem_optElemObj {o : NfObject} {t n : String} {e : Option (List PrefixExpr)}
    (h : o ∈ optElemObj t n e) : ∃ es, o = NfObject.elemDecl t n es := by
  cases e with
  | none => simp [optElemObj] at h
  | some es =>
      simp only [optElemObj, List.mem_singleton] at h
      exact ⟨es, h⟩

theorem rulesetTail_no_accept (cfg : NftConfig) (v4 v6 : Option (List PrefixExpr))
    (c : String) : ∀ o ∈ rulesetTail cfg v4 v6, isAcceptNoLogRuleFor c o = false := by
  intro o ho
  unfold rulesetTail at ho
  simp only [List.append_assoc, List.mem_append] at ho
  rcases ho with h | h | h | h | h | h <;>
    (obtain ⟨es, rfl⟩ := mem_optElemObj h; rfl)

theorem rulesetDrops_no_accept (cfg : NftConfig) (c : String) :
    ∀ o ∈ rulesetDrops cfg, isAcceptNoLogRuleFor c o = false := by
  intro o ho
  fin_cases ho <;> simp [isAcceptNoLogRuleFor, isAcceptSt, isLogSt]

/-- In `l₁ ++ l₂`, if `l₁` refutes `Q` and `l₂` refutes `P`, every index
satisfying `P` precedes every index satisfying `Q`. -/
theorem idx_lt_of_split {α : Type} {l₁ l₂ : List α} {P Q : α → Bool}
    (h₁ : ∀ x ∈ l₁, Q x = false) (h₂ : ∀ x ∈ l₂, P x = false)
    {i j : Nat} (hi : i < (l₁ ++ l₂).length) (hj : j < (l₁ ++ l₂).length)
    (hP : P ((l₁ ++ l₂).get ⟨i, hi⟩) = true) (hQ : Q ((l₁ ++ l₂).get ⟨j, hj⟩) = true) :
    i < j := by
  have hiL : i < l₁.length := by
    by_contra hge
    push_neg at hge
    have hi2 : i - l₁.length < l₂.length := by
      rw [List.length_append] at hi
      omega
    have hmem : l₂[i - l₁.length] ∈ l₂ := List.getElem_mem hi2
    have := h₂ _ hmem
    rw [List.get_eq_getElem, List.getElem_append_right hge] at hP
    rw [hP] at this
    simp at this
  have hjL : l₁.length ≤ j := by
    by_contra hlt
    push_neg at hlt
    have hmem : l₁[j] ∈ l₁ := List.getElem_mem hlt
    have := h₁ _ hmem
    rw [List.get_eq_getElem, List.getElem_append_left hlt] at hQ
    rw [hQ] at this
    simp at this
  omega

/-! ## Splitting lemmas for `parse_from_string` -/

theorem splitPred_chunks (p : Char → Bool) (cs : List Char) :
    ∀ t ∈ splitPred p cs, ∀ c ∈ t, p c = false := by
  induction cs with
  | nil =>
      intro t ht c hc
      simp only [splitPred, List.mem_singleton] at ht
      subst ht
      simp at hc
  | cons c rest ih =>
      intro t ht c' hc'
      by_cases hp : p c = true
      · simp only [splitPred, hp, if_true, List.mem_cons] at ht
        rcases ht with rfl | ht
        · simp at hc'
        · exact ih t ht c' hc'
      · have hstep : splitPred p (c :: rest) =
            match splitPred p rest with
            | [] => [[c]]
            | t :: ts => (c :: t) :: ts := by
          simp [splitPred, hp]
        rw [hstep] at ht
        cases hrec : splitPred p rest with
        | nil =>
            rw [hrec] at ht
            simp only [List.mem_singleton] at ht
            subst ht
            simp only [List.mem_singleton] at hc'
            subst hc'
            simpa using hp
        | cons t0 ts =>
            rw [hrec] at ht
            rcases List.mem_cons.mp ht with rfl | ht
            · rcases List.mem_cons.mp hc' with rfl | hc'
              · simpa using hp
              · exact ih t0 (by rw [hrec]; simp) c' hc'
            · exact ih t (by rw [hrec]; simp [ht]) c' hc'

theorem dropWhile_eq_self_of_none {p : Char → Bool} {l : List Char}
    (h : ∀ c ∈ l, p c = false) : l.dropWhile p = l := by
  cases l with
  | nil => rfl
  | cons c cs => simp [List.dropWhile_cons, h c (by simp)]

theorem trimList_eq_self {l : List Char} (h : ∀ c ∈ l, Char.isWhitespace c = false) :
    trimList l = l := by
  unfold trimList
  rw [dropWhile_eq_self_of_none h,
    dropWhile_eq_self_of_none (fun c hc => h c (List.mem_reverse.mp hc)),
    List.reverse_reverse]

/-! ## The claims -/

/-- C1: in every synthesized document, for every chain, every
anti-lockout rule (an unconditional accept carrying no log statement)
occupies an earlier position than every blocklist drop rule for the same
chain, for every configuration and every choice of element inputs. -/
theorem anti_lockout_precedes_blocklist_drops (cfg : NftConfig)
    (v4 v6 : Option (List PrefixExpr)) (c : String) (i j : Nat)
    (hi : i < (cfg.generate_ruleset v4 v6).length)
    (hj : j < (cfg.generate_ruleset v4 v6).length)
    (hP : isAcceptNoLogRuleFor c ((cfg.generate_ruleset v4 v6).get ⟨i, hi⟩) = true)
    (hQ : isDropRuleFor c ((cfg.generate_ruleset v4 v6).get ⟨j, hj⟩) = true) :
    i < j := by
  have hd := generate_ruleset_decomp cfg v4 v6
  revert hi hj
  rw [hd]
  intro hi hj hP hQ
  refine idx_lt_of_split (rulesetFront_no_drop cfg c) ?_ hi hj hP hQ
  intro x hx
  rcases List.mem_append.mp hx with h | h
  · exact rulesetDrops_no_accept cfg c x h
  · exact rulesetTail_no_accept cfg v4 v6 c x h

/-- Witness for C1: in the default configuration's document the first
prerouting anti-lockout accept sits at index 11 and the first prerouting
drop at index 15. -/
theorem anti_lockout_precedes_blocklist_drops_witness :
    isAcceptNoLogRuleFor "prerouting"
        ((defaultNftConfig.generate_ruleset none none).get ⟨11, by decide⟩) = true ∧
      isDropRuleFor "prerouting"
        ((defaultNftConfig.generate_ruleset none none).get ⟨15, by decide⟩) = true ∧
      (11 : Nat) < 15 :=
  have h1 : isAcceptNoLogRuleFor "prerouting"
      ((defaultNftConfig.generate_ruleset none none).get ⟨11, by decide⟩) = true := by decide
  have h2 : isDropRuleFor "prerouting"
      ((defaultNftConfig.generate_ruleset none none).get ⟨15, by decide⟩) = true := by decide
  ⟨h1, h2, anti_lockout_precedes_blocklist_drops defaultNftConfig none none "prerouting"
    11 15 (by decide) (by decide) h1 h2⟩

/-- C2, counterexample: the first object of a generated document is a
`create table`, not the claimed `delete table if exists`. -/
theorem ruleset_first_object_not_delete :
    (defaultNftConfig.generate_ruleset none none).get ⟨0, by decide⟩ =
        NfObject.createTable "nftblockd" ∧
      isDeleteTableObj ((defaultNftConfig.generate_ruleset none none).get ⟨0, by decide⟩) =
        false := by
  constructor <;> decide

/-- C2, amended: every generated document begins with `create table`,
then `delete table`, then the `create table` whose contents the rest of
the document populates — the delete is the second object and immediately
precedes that create. -/
theorem ruleset_head_create_delete_create (cfg : NftConfig)
    (v4 v6 : Option (List PrefixExpr)) :
    (cfg.generate_ruleset v4 v6).take 3 =
      [NfObject.createTable cfg.table_name, NfObject.deleteTable cfg.table_name,
        NfObject.createTable cfg.table_name] := by
  rw [generate_ruleset_decomp]
  rfl

/-- C4: deduplication is idempotent — in fact the second pass returns
the first pass's list unchanged, so in particular the results agree as
sets. -/
theorem deduplicate_idempotent (S : Option (List IpNetwork)) :
    deduplicate (deduplicate S) = deduplicate S := by
  cases S with
  | none => rfl
  | some l =>
      rw [deduplicate_eq_greedySel l,
        deduplicate_eq_greedySel (greedySel [] (sortByPlen l))]
      congr 1
      have hsorted : (greedySel [] (sortByPlen l)).Pairwise (fun a b => a.plen ≤ b.plen) :=
        List.Pairwise.sublist (greedySel_sublist [] (sortByPlen l)) (sortByPlen_sorted l)
      rw [sortByPlen_eq_self hsorted]
      exact greedySel_eq_self _ [] (by simp) (greedySel_antichain (sortByPlen l) []).1

/-- C8: after any sequence of insertions into a fresh trie, no node
with `is_subnet = true` has a strict descendant with `is_subnet = true`. -/
theorem trie_no_nested_subnet_marks (ps : List (List Bool)) (n d : TrieNode)
    (hn : DescOf n (insertAll TrieNode.new ps)) (hmark : n.is_subnet = true)
    (hd : StrictDescOf d n) : d.is_subnet = false :=
  no_nested_marks_of_nodeInv (nodeInv_of_desc hn (nodeInv_insertAll ps rfl)) hmark hd

/-- Witness for C8: after inserting the one-bit path `[true]`, the marked
node's child is unmarked. -/
theorem trie_no_nested_subnet_marks_witness : TrieNode.nil.is_subnet = false := by
  refine trie_no_nested_subnet_marks [[true]] (TrieNode.mk .nil .nil true) .nil ?_ (by decide) ?_
  · show DescOf (TrieNode.mk .nil .nil true) (insertAll TrieNode.new [[true]])
    have h : insertAll TrieNode.new [[true]] =
        TrieNode.mk .nil (TrieNode.mk .nil .nil true) false := by decide
    rw [h]
    exact Relation.ReflTransGen.single (ChildOf.right _ _ _)
  · exact Relation.TransGen.single (ChildOf.left _ _ _)

/-- C9: the survivors come out sorted by ascending prefix length, with
equal prefix lengths kept in their original input order (the sort is
stable, and ties are not reordered by address — witnessed by a pair of
`/24`s in address-descending order that stays put). -/
theorem deduplicate_order (l : List IpNetwork) {r : List IpNetwork}
    (h : deduplicate (some l) = some r) :
    r.Pairwise (fun a b => a.plen ≤ b.plen) ∧
      (∀ k, (r.filter (fun y => y.plen == k)).Sublist (l.filter (fun y => y.plen == k))) ∧
      deduplicate (some [⟨0xC0A80000, 24, 32⟩, ⟨0x0A000000, 24, 32⟩]) =
        some [⟨0xC0A80000, 24, 32⟩, ⟨0x0A000000, 24, 32⟩] := by
  rw [deduplicate_eq_greedySel] at h
  have hr : r = greedySel [] (sortByPlen l) := by
    simpa using h.symm
  subst hr
  refine ⟨List.Pairwise.sublist (greedySel_sublist _ _) (sortByPlen_sorted l), ?_, by decide⟩
  intro k
  have hsub := (greedySel_sublist [] (sortByPlen l)).filter (fun y => y.plen == k)
  rwa [filter_sortByPlen] at hsub

/-- Witness for C9 on a one-element list. -/
theorem deduplicate_order_witness :
    ([(⟨0x0A000000, 8, 32⟩ : IpNetwork)].Pairwise (fun a b => a.plen ≤ b.plen)) ∧
      (∀ k, (([(⟨0x0A000000, 8, 32⟩ : IpNetwork)]).filter (fun y => y.plen == k)).Sublist
        (([(⟨0x0A000000, 8, 32⟩ : IpNetwork)]).filter (fun y => y.plen == k))) ∧
      deduplicate (some [⟨0xC0A80000, 24, 32⟩, ⟨0x0A000000, 24, 32⟩]) =
        some [⟨0xC0A80000, 24, 32⟩, ⟨0x0A000000, 24, 32⟩] :=
  deduplicate_order [⟨0x0A000000, 8, 32⟩] (by decide)

/-- C3: whenever `B`'s range is contained in `A`'s range (same family,
both validated), deduplicating `[A, B]` or `[B, A]` yields exactly `[A]`. -/
theorem deduplicate_absorption {A B : IpNetwork} (hw : B.w = A.w)
    (hwfA : A.Wf) (hwfB : B.Wf) (hvA : A.isNetwork = true) (hvB : B.isNetwork = true)
    (hsub : ∀ a, B.inRange a → A.inRange a) :
    deduplicate (some [A, B]) = some [A] ∧ deduplicate (some [B, A]) = some [A] := by
  have hplen := plen_le_of_contained hw hwfA hwfB hsub
  have hpre := isPrefixOf_of_contained hw hwfA hwfB hsub
  constructor
  · rw [deduplicate_eq_greedySel]
    have hsort : sortByPlen [A, B] = [A, B] := by
      simp [sortByPlen, insertByPlen, hplen]
    rw [hsort]
    simp [greedySel, hpre]
  · rw [deduplicate_eq_greedySel]
    by_cases heq : B.plen ≤ A.plen
    · have hAB : B = A := eq_of_contained_of_plen_eq hw hvA hvB (le_antisymm hplen heq) hsub
      subst hAB
      have hsort : sortByPlen [B, B] = [B, B] := by simp [sortByPlen, insertByPlen]
      rw [hsort]
      have hrefl : B.ipPath.isPrefixOf B.ipPath = true :=
        ( List.isPrefixOf_iff_prefix).mpr (List.prefix_refl _)
      simp [greedySel, hrefl]
    · have hsort : sortByPlen [B, A] = [A, B] := by
        simp [sortByPlen, insertByPlen, heq]
      rw [hsort]
      simp [greedySel, hpre]

/-- Witness for C3: `0.0.0.0/0` absorbs `127.0.0.1/32` and `::/0` absorbs
`::1/128` (the spec's universal-absorption examples, in the given order). -/
theorem deduplicate_absorption_witness :
    deduplicate (some [⟨0x7f000001, 32, 32⟩, ⟨0, 0, 32⟩]) = some [⟨0, 0, 32⟩] ∧
      deduplicate (some [⟨1, 128, 128⟩, ⟨0, 0, 128⟩]) = some [⟨0, 0, 128⟩] := by
  constructor
  · refine (deduplicate_absorption (A := ⟨0, 0, 32⟩) (B := ⟨0x7f000001, 32, 32⟩)
      rfl (by decide) (by decide) (by decide) (by decide) ?_).2
    intro a ha
    have h1 : a = 0x7f000001 := by
      simpa [IpNetwork.inRange, IpNetwork.networkAddr] using ha
    subst h1
    decide
  · refine (deduplicate_absorption (A := ⟨0, 0, 128⟩) (B := ⟨1, 128, 128⟩)
      rfl (by decide) (by decide) (by decide) (by decide) ?_).2
    intro a ha
    have h1 : a = 1 := by
      simpa [IpNetwork.inRange, IpNetwork.networkAddr] using ha
    subst h1
    decide

/-- C5: a list of pairwise range-disjoint validated subnets of one
family survives deduplication in full — the result is a permutation of the
input. -/
theorem deduplicate_disjoint_preserves (l : List IpNetwork)
    (hwf : ∀ x ∈ l, x.Wf) (hval : ∀ x ∈ l, x.isNetwork = true)
    (hfam : ∀ x ∈ l, ∀ y ∈ l, x.w = y.w)
    (hdisj : l.Pairwise RangeDisjoint) :
    ∃ r, deduplicate (some l) = some r ∧ List.Perm r l := by
  have hperm := sortByPlen_perm l
  have hd2 : (sortByPlen l).Pairwise RangeDisjoint :=
    (List.Perm.pairwise_iff (fun h => rangeDisjoint_symm h) hperm).mpr hdisj
  have hpair : (sortByPlen l).Pairwise (fun a b => a.ipPath.isPrefixOf b.ipPath = false) := by
    refine hd2.imp_of_mem ?_
    intro a b ha hb hdj
    have ha' : a ∈ l := hperm.subset ha
    have hb' : b ∈ l := hperm.subset hb
    by_contra hne
    rw [Bool.not_eq_false] at hne
    exact not_rangeDisjoint_of_isPrefixOf (hfam b hb' a ha') (hwf a ha') (hwf b hb') hne hdj
  refine ⟨greedySel [] (sortByPlen l), deduplicate_eq_greedySel l, ?_⟩
  rw [greedySel_eq_self _ [] (by simp) hpair]
  exact hperm

/-- Witness for C5 with the disjoint pair `10.0.0.0/8`, `192.168.0.0/16`. -/
theorem deduplicate_disjoint_preserves_witness :
    ∃ r, deduplicate (some [⟨0x0A000000, 8, 32⟩, ⟨0xC0A80000, 16, 32⟩]) = some r ∧
      List.Perm r [⟨0x0A000000, 8, 32⟩, ⟨0xC0A80000, 16, 32⟩] := by
  refine deduplicate_disjoint_preserves _ (by decide) (by decide) (by decide) ?_
  refine List.Pairwise.cons ?_ (by simp)
  intro y hy
  rw [List.mem_singleton] at hy
  subst hy
  rintro ⟨a, h1, h2⟩
  simp only [IpNetwork.inRange, IpNetwork.networkAddr, Nat.shiftRight_eq_div_pow,
    Nat.shiftLeft_eq] at h1 h2
  norm_num at h1 h2
  omega

/-- C6: strict validation of `["10.0.0.0/8", "10.0.0.5/24"]` fails with
a `ParseError` naming the misaligned entry, lenient validation keeps only
`10.0.0.0/8`; in general strict mode fails at the first offending entry
with that entry's error, while lenient mode skips offenders and keeps the
rest. -/
theorem validate_subnets_strict_fail_fast :
    (validate_subnets parseIpv4Network ipv4Display ["10.0.0.0/8", "10.0.0.5/24"] true =
      .error ⟨.ParseError, "invalid ip: 10.0.0.5/24; not a network"⟩) ∧
    (validate_subnets parseIpv4Network ipv4Display ["10.0.0.0/8", "10.0.0.5/24"] false =
      .ok (some [⟨0x0A000000, 8, 32⟩])) ∧
    (∀ (parse : String → Except String IpNetwork) (display : IpNetwork → String)
        (pre : List String) (bad : String) (rest : List String) (e : AppError),
      (∀ x ∈ pre, entryError parse display x = none) →
      entryError parse display bad = some e →
      validate_subnets parse display (pre ++ bad :: rest) true = .error e) ∧
    (∀ (parse : String → Except String IpNetwork) (display : IpNetwork → String)
        (ips : List String),
      validate_subnets parse display ips false =
        .ok (if (ips.filterMap (fun s =>
                match parse s with
                | .ok p => if p.isNetwork then some p else none
                | .error _ => none)).isEmpty
             then none
             else some (ips.filterMap (fun s =>
                match parse s with
                | .ok p => if p.isNetwork then some p else none
                | .error _ => none)))) := by
  refine ⟨by decide, by decide, ?_, ?_⟩
  · intro parse display pre bad rest e hpre hbad
    unfold validate_subnets
    rw [validateLoop_strict_error parse display pre bad rest hpre hbad]
    rfl
  · intro parse display ips
    unfold validate_subnets
    rw [validateLoop_lenient]
    rfl

/-- Witness for C6's generic strict clause at the spec's example input. -/
theorem validate_subnets_strict_fail_fast_witness :
    validate_subnets parseIpv4Network ipv4Display
        (["10.0.0.0/8"] ++ "10.0.0.5/24" :: []) true =
      .error ⟨.ParseError, "invalid ip: 10.0.0.5/24; not a network"⟩ :=
  validate_subnets_strict_fail_fast.2.2.1 parseIpv4Network ipv4Display ["10.0.0.0/8"]
    "10.0.0.5/24" [] ⟨.ParseError, "invalid ip: 10.0.0.5/24; not a network"⟩
    (by decide) (by decide)

/-- C7: a successful validation returns either `none` or a non-empty
list — never `some []` — and the empty input yields `Ok(None)` in both
modes. -/
theorem validate_subnets_ok_nonempty (parse : String → Except String IpNetwork)
    (display : IpNetwork → String) (strict : Bool) :
    (∀ ips r, validate_subnets parse display ips strict = .ok r →
      r = none ∨ ∃ v, r = some v ∧ v ≠ []) ∧
    validate_subnets parse display [] strict = .ok none :=
  ⟨fun ips r h => validate_subnets_ok_shape parse display ips strict h, rfl⟩

/-- Witness for C7 at the empty input. -/
theorem validate_subnets_ok_nonempty_witness :
    (none : Option (List IpNetwork)) = none ∨
      ∃ v, (none : Option (List IpNetwork)) = some v ∧ v ≠ [] :=
  (validate_subnets_ok_nonempty parseIpv4Network ipv4Display true).1 [] none rfl

/-- C10: custom-delimiter splitting keeps the empty tokens produced by
leading, consecutive and trailing delimiters (trimming only whitespace),
whitespace splitting never yields an empty entry, and an empty entry makes
strict validation fail the whole batch with a `ParseError`. -/
theorem parse_from_string_empty_tokens :
    (parse_from_string (some ",1.2.3.4,,5.6.7.8,") (some ",") =
      some ["", "1.2.3.4", "", "5.6.7.8", ""]) ∧
    (∀ (s : String) (r : List String), parse_from_string (some s) none = some r → "" ∉ r) ∧
    (∀ ips : List String, "" ∈ ips →
      ∃ e, validate_subnets parseIpv4Network ipv4Display ips true = .error e ∧
        e.error_kind = .ParseError) := by
  refine ⟨by decide, ?_, ?_⟩
  · intro s r h hmem
    by_cases hs : s.data = []
    · simp [parse_from_string, hs] at h
    · simp only [parse_from_string, hs, if_false] at h
      rw [Option.some.injEq] at h
      subst h
      obtain ⟨t, ht, hteq⟩ := List.mem_map.mp hmem
      obtain ⟨htmem, htne⟩ := List.mem_filter.mp ht
      have hnw : ∀ c ∈ t, Char.isWhitespace c = false :=
        splitPred_chunks Char.isWhitespace s.data t htmem
      have htrim : trimList t = t := trimList_eq_self hnw
      have : t = [] := by
        have := congrArg String.data hteq
        simpa [htrim] using this
      simp [this] at htne
  · intro ips hmem
    exact validate_subnets_strict_parse_error parseIpv4Network ipv4Display ips
      ⟨"", hmem, by decide⟩

/-- Witness for C10's whitespace clause and strict-failure clause. -/
theorem parse_from_string_empty_tokens_witness :
    ("" ∉ ["1.2.3.4", "5.6.7.8"]) ∧
      (∃ e, validate_subnets parseIpv4Network ipv4Display [""] true = .error e ∧
        e.error_kind = .ParseError) :=
  ⟨parse_from_string_empty_tokens.2.1 "1.2.3.4 5.6.7.8" ["1.2.3.4", "5.6.7.8"] (by decide),
    parse_from_string_empty_tokens.2.2 [""] (by decide)⟩

end Nftblockd
